import Mathlib

/-!
Verification of the pub/sub simulation and deduplication-strategy engine of
the `jtouley/sandbox` repository (files `labs/day04_pubsub/day04_pubsub_sim.py`,
`labs/day04_pubsub/dedup_strategies.py`,
`labs/day05_configdriven/src/strategies/dedup.py`,
`labs/day05_configdriven/src/sources/pubsub.py`).

The Python code is shallowly embedded: pure functions become Lean functions,
the asyncio publisher/subscriber pair becomes an explicit virtual-time event
model, Polars DataFrame calls become deterministic list operations, and
`hashlib.sha256(...).hexdigest()` is implemented bit-for-bit below over `Nat`
with explicit reduction modulo `2 ^ 32`.
-/

/-! ## SHA-256 (`hashlib.sha256(key.encode()).hexdigest()`)

A direct implementation of FIPS 180-4 SHA-256 over byte lists, with 32-bit
words represented as `Nat` reduced modulo `2 ^ 32`.  Strings are encoded to
bytes with UTF-8, matching Python's `str.encode()`. -/

namespace SHA256

def add32 (a b : Nat) : Nat := (a + b) % 4294967296

def rotr (n x : Nat) : Nat := ((x >>> n) ||| (x <<< (32 - n))) % 4294967296

def bsig0 (x : Nat) : Nat := (rotr 2 x) ^^^ (rotr 13 x) ^^^ (rotr 22 x)

def bsig1 (x : Nat) : Nat := (rotr 6 x) ^^^ (rotr 11 x) ^^^ (rotr 25 x)

def ssig0 (x : Nat) : Nat := (rotr 7 x) ^^^ (rotr 18 x) ^^^ (x >>> 3)

def ssig1 (x : Nat) : Nat := (rotr 17 x) ^^^ (rotr 19 x) ^^^ (x >>> 10)

def ch (x y z : Nat) : Nat := (x &&& y) ^^^ ((x ^^^ 4294967295) &&& z)

def maj (x y z : Nat) : Nat := (x &&& y) ^^^ (x &&& z) ^^^ (y &&& z)

def K : List Nat :=
  [1116352408, 1899447441, 3049323471, 3921009573, 961987163,
   1508970993, 2453635748, 2870763221, 3624381080, 310598401,
   607225278, 1426881987, 1925078388, 2162078206, 2614888103,
   3248222580, 3835390401, 4022224774, 264347078, 604807628,
   770255983, 1249150122, 1555081692, 1996064986, 2554220882,
   2821834349, 2952996808, 3210313671, 3336571891, 3584528711,
   113926993, 338241895, 666307205, 773529912, 1294757372,
   1396182291, 1695183700, 1986661051, 2177026350, 2456956037,
   2730485921, 2820302411, 3259730800, 3345764771, 3516065817,
   3600352804, 4094571909, 275423344, 430227734, 506948616,
   659060556, 883997877, 958139571, 1322822218, 1537002063,
   1747873779, 1955562222, 2024104815, 2227730452, 2361852424,
   2428436474, 2756734187, 3204031479, 3329325298]

structure H8 where
  a : Nat
  b : Nat
  c : Nat
  d : Nat
  e : Nat
  f : Nat
  g : Nat
  h : Nat

def initH : H8 :=
  ⟨1779033703, 3144134277, 1013904242, 2773480762,
   1359893119, 2600822924, 528734635, 1541459225⟩

/-- One round of the compression function, consuming one `(W_t, K_t)` pair. -/
def round (s : H8) (wk : Nat × Nat) : H8 :=
  let t1 := (s.h + bsig1 s.e + ch s.e s.f s.g + wk.2 + wk.1) % 4294967296
  let t2 := (bsig0 s.a + maj s.a s.b s.c) % 4294967296
  ⟨add32 t1 t2, s.a, s.b, s.c, add32 s.d t1, s.e, s.f, s.g⟩

/-- Big-endian 32-bit words from a list of bytes (length a multiple of 4). -/
def toWords : List Nat → List Nat
  | b0 :: b1 :: b2 :: b3 :: rest =>
      (b0 * 16777216 + b1 * 65536 + b2 * 256 + b3) :: toWords rest
  | _ => []

/-- Extend 16 schedule words to 64 (the `fuel` argument counts additions). -/
def extendW (w : List Nat) : Nat → List Nat
  | 0 => w
  | n + 1 =>
      let t := w.length
      let next := (ssig1 (w.getD (t - 2) 0) + w.getD (t - 7) 0 +
                   ssig0 (w.getD (t - 15) 0) + w.getD (t - 16) 0) % 4294967296
      extendW (w ++ [next]) n

def addH (x y : H8) : H8 :=
  ⟨add32 x.a y.a, add32 x.b y.b, add32 x.c y.c, add32 x.d y.d,
   add32 x.e y.e, add32 x.f y.f, add32 x.g y.g, add32 x.h y.h⟩

def processChunk (hv : H8) (chunk : List Nat) : H8 :=
  let w := extendW (toWords chunk) 48
  addH hv ((w.zip K).foldl round hv)

/-- Split the padded byte list into 64-byte chunks (`fuel` = chunk count). -/
def toChunks (l : List Nat) : Nat → List (List Nat)
  | 0 => []
  | n + 1 => l.take 64 :: toChunks (l.drop 64) n

/-- FIPS 180-4 padding: `0x80`, zeros, then the bit length on 8 bytes. -/
def pad (msg : List Nat) : List Nat :=
  let len := msg.length
  let zeros := (119 - len % 64) % 64
  let bitLen := 8 * len
  msg ++ [128] ++ List.replicate zeros 0 ++
    [bitLen >>> 56 % 256, bitLen >>> 48 % 256, bitLen >>> 40 % 256,
     bitLen >>> 32 % 256, bitLen >>> 24 % 256, bitLen >>> 16 % 256,
     bitLen >>> 8 % 256, bitLen % 256]

def digestWords (msg : List Nat) : List Nat :=
  let padded := pad msg
  let final := (toChunks padded (padded.length / 64)).foldl processChunk initH
  [final.a, final.b, final.c, final.d, final.e, final.f, final.g, final.h]

def hexChar (n : Nat) : Char := "0123456789abcdef".toList.getD n '0'

/-- Fixed-width lowercase hex rendering of one 32-bit word. -/
def hexWord (n : Nat) : List Char :=
  [hexChar (n >>> 28 % 16), hexChar (n >>> 24 % 16), hexChar (n >>> 20 % 16),
   hexChar (n >>> 16 % 16), hexChar (n >>> 12 % 16), hexChar (n >>> 8 % 16),
   hexChar (n >>> 4 % 16), hexChar (n % 16)]

/-- UTF-8 encoding of one character, as in Python's `str.encode()`. -/
def utf8Char (c : Char) : List Nat :=
  let n := c.toNat
  if n < 128 then [n]
  else if n < 2048 then [192 + n / 64, 128 + n % 64]
  else if n < 65536 then
    [224 + n / 4096, 128 + n / 64 % 64, 128 + n % 64]
  else
    [240 + n / 262144, 128 + n / 4096 % 64, 128 + n / 64 % 64, 128 + n % 64]

def utf8 (s : String) : List Nat := s.toList.flatMap utf8Char

end SHA256

/-- The digest `hashlib.sha256(s.encode()).hexdigest()`. -/
def sha256hex (s : String) : String :=
  ⟨((SHA256.digestWords (SHA256.utf8 s)).flatMap SHA256.hexWord)⟩

/-! ## Deterministic embedding of the Polars calls

Polars' `df.sort(col)` with its default `maintain_order=False` promises only
a permutation of the frame that is nondecreasing in the key; the relative
order of rows with equal keys is not specified.  That contract is captured
by `IsSortOf` below; `sortOn`, a stable insertion sort, is the executable
model that picks one permitted order (claims that depend on the order of
equal keys are settled against the contract, not against this choice).
`df.unique(subset, keep="first")` keeps the first-encountered row per key
value, `keep="last"` the last, both leaving the surviving rows in their
current row order. -/

/-- Model of `df.unique(subset=[k], keep="first")`: keep the first row per key. -/
def uniqueFirstBy [DecidableEq β] (f : α → β) : List α → List α
  | [] => []
  | x :: xs => x :: (uniqueFirstBy f xs).filter (fun y => decide (f y ≠ f x))

/-- Model of `df.unique(subset=[k], keep="last")`: keep the last row per key. -/
def uniqueLastBy [DecidableEq β] (f : α → β) : List α → List α
  | [] => []
  | x :: xs =>
      if f x ∈ xs.map f then uniqueLastBy f xs else x :: uniqueLastBy f xs

/-- The singleton holding a list's head, `[]` for the empty list. -/
def headSingleton : List α → List α
  | [] => []
  | x :: _ => [x]

/-- The singleton holding a list's last element, `[]` for the empty list. -/
def lastSingleton : List α → List α
  | [] => []
  | [x] => [x]
  | _ :: y :: ys => lastSingleton (y :: ys)

/-- Stable insertion of `x` into a list sorted by `key`: `x` goes before the
first element whose key is not strictly smaller, so an earlier row stays
before later rows with an equal key. -/
def ordIns (key : α → ℚ) (x : α) : List α → List α
  | [] => [x]
  | y :: ys => if key x ≤ key y then x :: y :: ys else y :: ordIns key x ys

/-- The executable model of `df.sort(col)`: a stable insertion sort, one of
the orders the Polars contract permits (it promises no order among equal
keys; see `IsSortOf`). -/
def sortOn (key : α → ℚ) : List α → List α
  | [] => []
  | x :: xs => ordIns key x (sortOn key xs)

/-- Ascending order by `key`, the postcondition of `sortOn`. -/
def SortedOn (key : α → ℚ) (l : List α) : Prop :=
  l.Pairwise (fun a b => key a ≤ key b)

/-- The Polars contract for `df.sort(col)` with the default
`maintain_order=False`: a permitted result is any permutation of the frame
that is nondecreasing in the key.  Nothing fixes the relative order of rows
with equal keys. -/
def IsSortOf (key : α → ℚ) (l s : List α) : Prop :=
  List.Perm s l ∧ SortedOn key s

/-! ## Record model and the deduplication strategies

One received record (`labs/day04_pubsub/day04_pubsub_sim.py`, `subscriber`):
the six produced `Message` fields plus the arrival metadata stamped by the
subscriber.  The three optional fields model the columns that the strategies
may attach (`with_columns` overwrites them when they are already present).
Timestamps are rationals standing for the epoch-second floats. -/

structure Rec where
  message_id : String
  sequence_id : Int
  partition_id : Int
  created_at : ℚ
  value : Int
  zipcode : String
  arrival_ts : ℚ
  arrival_index : Int
  composite_hash : Option String := none
  payload_hash : Option String := none
  partition_date : Option Int := none
deriving DecidableEq, Repr

/-- The unseparated key concatenation
`f"{row['message_id']}{row['sequence_id']}{row['partition_id']}"` of
`compute_composite_hash` (day04) — identically produced by day05's
`pl.concat_str([col("message_id"), col("sequence_id").cast(Utf8),
col("partition_id").cast(Utf8)])`. -/
def compositeKeyString (r : Rec) : String :=
  r.message_id ++ toString r.sequence_id ++ toString r.partition_id

/-- The function `compute_composite_hash` of `labs/day04_pubsub/dedup_strategies.py`. -/
def compute_composite_hash (r : Rec) : String :=
  sha256hex (compositeKeyString r)

def jsonStr (s : String) : String := "\"" ++ s ++ "\""

/-- Rendering of an epoch-second float in the JSON payload (Python prints a
float with a decimal point; the exact digits of non-integral values do not
matter to any claim, only that the rendering is a function of the value). -/
def jsonOfRat (q : ℚ) : String :=
  if q.den = 1 then toString q.num ++ ".0" else toString q

/-- Model of `json.dumps(row, sort_keys=True)`: the record serialized with its keys in
sorted order, including the constant `"event": "message_received"` field that
every subscriber record carries; optional columns appear only when present. -/
def payloadJson (r : Rec) : String :=
  let pairs : List (String × String) :=
    [("arrival_index", toString r.arrival_index),
     ("arrival_ts", jsonOfRat r.arrival_ts)]
    ++ (match r.composite_hash with
        | some h => [("composite_hash", jsonStr h)]
        | none => [])
    ++ [("created_at", jsonOfRat r.created_at),
        ("event", jsonStr "message_received"),
        ("message_id", jsonStr r.message_id)]
    ++ (match r.partition_date with
        | some d => [("partition_date", toString d)]
        | none => [])
    ++ [("partition_id", toString r.partition_id)]
    ++ (match r.payload_hash with
        | some h => [("payload_hash", jsonStr h)]
        | none => [])
    ++ [("sequence_id", toString r.sequence_id),
        ("value", toString r.value),
        ("zipcode", jsonStr r.zipcode)]
  "\x7b" ++ String.intercalate ", "
    (pairs.map (fun p => jsonStr p.1 ++ ": " ++ p.2)) ++ "\x7d"

/-- The function `compute_payload_hash` of `labs/day04_pubsub/dedup_strategies.py`. -/
def compute_payload_hash (r : Rec) : String := sha256hex (payloadJson r)

/-- Model of `pl.from_epoch(col("created_at"), time_unit="s").dt.date()`: the epoch
day of the timestamp. -/
def partitionDate (q : ℚ) : Int := ⌊q / 86400⌋

/-- The `with_columns` step attaching (or overwriting) `composite_hash`;
`add_composite_hash_column` of day05 and the first step of every day04
strategy. -/
def addHashCol (r : Rec) : Rec :=
  { r with composite_hash := some (compute_composite_hash r) }

/-- The numeric fields of the metrics dict returned by `eager_dedup` (the
formatted `dedup_rate` percentage string is omitted). -/
structure EagerMetrics where
  strategy : String
  initial_records : Nat
  final_records : Nat
  dropped_duplicates : Nat
deriving DecidableEq, Repr

/-- The function `eager_dedup` (day04 lines 37–78): attach `composite_hash`, then
`unique(subset=["composite_hash"], keep="first")`.  day05's
`EagerDedupStrategy.process` computes the same frame. -/
def eager_dedup (df : List Rec) : List Rec × EagerMetrics :=
  let df1 := df.map addHashCol
  let deduped := uniqueFirstBy (fun r => r.composite_hash) df1
  (deduped,
   ⟨"eager_dedup", df1.length, deduped.length, df1.length - deduped.length⟩)

structure MergeMetrics where
  strategy : String
  initial_records : Nat
  final_records : Nat
  merged_duplicates : Nat
  dedup_method : String
deriving DecidableEq, Repr

/-- The function `merge_dedup_polars` (day04 lines 127–165): attach `composite_hash`,
`df.sort("created_at").unique(subset=["message_id"], keep="last")`.  The
`table_path` argument of the Python function is never read or written and is
omitted.  day05's `PolarsMergeStrategy.process` computes the same frame with
its default configuration. -/
def merge_dedup_polars (df : List Rec) : List Rec × MergeMetrics :=
  let df1 := df.map addHashCol
  let deduped :=
    uniqueLastBy (fun r => r.message_id) (sortOn (fun r => r.created_at) df1)
  (deduped,
   ⟨"merge_dedup_polars", df1.length, deduped.length,
    df1.length - deduped.length, "last-write-wins by message_id"⟩)

structure BronzeMetrics where
  strategy : String
  total_records : Nat
  unique_composite_keys : Nat
  unique_payloads : Nat
  potential_duplicates : Nat
deriving DecidableEq, Repr

/-- The row annotation of the Bronze strategies: `composite_hash`,
`payload_hash` over the input row's columns, and `partition_date`. -/
def bronzeAnnotate (r : Rec) : Rec :=
  { addHashCol r with
    payload_hash := some (compute_payload_hash r),
    partition_date := some (partitionDate r.created_at) }

/-- The function `add_hashes` (day04 lines 81–124): attach both hashes and
`partition_date`; no row is dropped. -/
def add_hashes (df : List Rec) : List Rec × BronzeMetrics :=
  let out := df.map bronzeAnnotate
  (out,
   ⟨"add_hashes", df.length,
    (out.map (fun r => r.composite_hash)).dedup.length,
    (out.map (fun r => r.payload_hash)).dedup.length,
    df.length - (out.map (fun r => r.composite_hash)).dedup.length⟩)

/-- The method `BronzeAppendStrategy.process` (day05 lines 133–185): the same annotated
frame, written to the persisted table with `mode="append"`; the table is
modelled as the list of its rows, and the write as appending the output. -/
def bronzeAppendProcess (df : List Rec) (table : List Rec) :
    List Rec × List Rec :=
  let out := df.map bronzeAnnotate
  (out, table ++ out)

/-- Forget the `composite_hash` column (the one column `merge_dedup_polars`
overwrites on its output rows). -/
def eraseCompositeHash (r : Rec) : Rec := { r with composite_hash := none }

/-- Forget the three columns the Bronze strategies attach. -/
def stripAddedCols (r : Rec) : Rec :=
  { r with
    composite_hash := none
    payload_hash := none
    partition_date := none }

/-- A record with composite key `("a", 12, 3)`: its unseparated key
concatenation is the string `"a123"`. -/
def recA : Rec :=
  { message_id := "a", sequence_id := 12, partition_id := 3, created_at := 0,
    value := 1, zipcode := "00001", arrival_ts := 0, arrival_index := 1 }

/-- A record with the different composite key `("a1", 2, 3)`, whose
unseparated key concatenation is the same string `"a123"`. -/
def recB : Rec :=
  { message_id := "a1", sequence_id := 2, partition_id := 3, created_at := 0,
    value := 2, zipcode := "00002", arrival_ts := 0, arrival_index := 2 }

/-- The relational semantics of `merge_dedup_polars` under the Polars sort
contract: `out` is a permitted canonical output for batch `b` exactly when
the pipeline's `unique(subset=["message_id"], keep="last")` is applied to
some permitted order `s` of the annotated batch.  `merge_dedup_polars`
itself realizes one such outcome (with `s := sortOn ...`). -/
def mergeOutcome (b s out : List Rec) : Prop :=
  IsSortOf (fun r => r.created_at) (b.map addHashCol) s
  ∧ out = uniqueLastBy (fun r => r.message_id) s

/-- First of two records sharing `message_id = "m"` and `created_at = 5`. -/
def r4A : Rec :=
  { message_id := "m", sequence_id := 1, partition_id := 0, created_at := 5,
    value := 10, zipcode := "11111", arrival_ts := 1, arrival_index := 1 }

/-- Second of the two: same `message_id` and `created_at` as `r4A`, later in
the input batch. -/
def r4B : Rec :=
  { message_id := "m", sequence_id := 2, partition_id := 0, created_at := 5,
    value := 20, zipcode := "22222", arrival_ts := 2, arrival_index := 2 }

/-! ## Schema-flexible frame model (failure semantics)

The strategies receive a Polars DataFrame whose schema comes from the input
file, so a required column can be absent.  A frame is a column-name list plus
rows of (name, value) pairs; referencing an absent column is what raises
Polars' `ColumnNotFoundError`, modelled as `Except.error`.  The persisted
Delta table is the list of its rows; day05 writes it only after the strategy
pipeline succeeds, so an error leaves it unchanged. -/

inductive Val where
  | vStr : String → Val
  | vInt : Int → Val
  | vRat : ℚ → Val
deriving DecidableEq, Repr

/-- One row: an association list from column name to value. -/
abbrev SRow := List (String × Val)

structure SDF where
  cols : List String
  rows : List SRow
deriving DecidableEq, Repr

inductive StratErr where
  | columnNotFound : String → StratErr
deriving DecidableEq, Repr

/-- Model of `.cast(pl.Utf8)` on a scalar while building the key string: a string is
unchanged, an integer is rendered in decimal, a float with a decimal point
(the cast renders the stored value; it never alters the stored column). -/
def castUtf8 : Val → String
  | Val.vStr s => s
  | Val.vInt n => toString n
  | Val.vRat q => jsonOfRat q

/-- Read a column value from a row (total: a well-formed frame carries every
schema column in every row; the default is never reached on such frames). -/
def rowGet (r : SRow) (c : String) : Val :=
  ((r.find? (fun p => decide (p.1 = c))).map Prod.snd).getD (Val.vStr "")

/-- Model of `with_columns` at row level: overwrite the column if present, else
append it. -/
def setCol (c : String) (v : Val) (r : SRow) : SRow :=
  if r.any (fun p => decide (p.1 = c)) then
    r.map (fun p => if p.1 = c then (c, v) else p)
  else r ++ [(c, v)]

/-- Drop one column from a row. -/
def eraseCol (c : String) (r : SRow) : SRow :=
  r.filter (fun p => decide (p.1 ≠ c))

/-- The function `add_composite_hash_column` of
`labs/day05_configdriven/src/strategies/dedup.py` (lines 38–55):
`pl.concat_str` of the three key columns (casting the two integer columns to
Utf8) hashed with SHA-256; referencing an absent column raises
`ColumnNotFoundError` before anything is written. -/
def add_composite_hash_column (df : SDF) : Except StratErr SDF :=
  if "message_id" ∉ df.cols then Except.error (StratErr.columnNotFound "message_id")
  else if "sequence_id" ∉ df.cols then Except.error (StratErr.columnNotFound "sequence_id")
  else if "partition_id" ∉ df.cols then Except.error (StratErr.columnNotFound "partition_id")
  else Except.ok
    { cols :=
        if "composite_hash" ∈ df.cols then df.cols
        else df.cols ++ ["composite_hash"]
      rows := df.rows.map (fun r =>
        setCol "composite_hash"
          (Val.vStr (sha256hex (castUtf8 (rowGet r "message_id")
            ++ castUtf8 (rowGet r "sequence_id")
            ++ castUtf8 (rowGet r "partition_id")))) r) }

/-- The method `EagerDedupStrategy.process` (day05 lines 75–112) over a schema-flexible
frame and the persisted table: hash column first, then
`unique(subset=["composite_hash"], keep="first")`, then the Delta write with
`mode="overwrite"`.  An error from the hash step aborts before the write. -/
def eagerProcessDay05 (df : SDF) (table : List SRow) :
    Except StratErr SDF × List SRow :=
  match add_composite_hash_column df with
  | Except.error e => (Except.error e, table)
  | Except.ok df1 =>
      let deduped := uniqueFirstBy (fun r => rowGet r "composite_hash") df1.rows
      (Except.ok ⟨df1.cols, deduped⟩, deduped)

/-- The numeric view of a column value used only for ordering in
`df.sort(...)` (the simulator's `created_at` column is numeric). -/
def valAsRat : Val → ℚ
  | Val.vStr _ => 0
  | Val.vInt n => (n : ℚ)
  | Val.vRat q => q

/-- The method `PolarsMergeStrategy.process` (day05 lines 206–241) with its default
configuration: hash column, `df.sort("created_at")` (raising
`ColumnNotFoundError` when the sort column is absent, before the write),
`unique(subset=["message_id"], keep="last")`, Delta write `mode="overwrite"`. -/
def mergeProcessDay05 (df : SDF) (table : List SRow) :
    Except StratErr SDF × List SRow :=
  match add_composite_hash_column df with
  | Except.error e => (Except.error e, table)
  | Except.ok df1 =>
      if "created_at" ∉ df1.cols then
        (Except.error (StratErr.columnNotFound "created_at"), table)
      else
        let deduped := uniqueLastBy (fun r => rowGet r "message_id")
          (sortOn (fun r => valAsRat (rowGet r "created_at")) df1.rows)
        (Except.ok ⟨df1.cols, deduped⟩, deduped)

/-- A frame with no `message_id` column (nor the other key columns). -/
def dfMissingKey : SDF := ⟨["value"], [[("value", Val.vInt 1)]]⟩

/-- A frame with the three key columns but no `created_at` column. -/
def dfNoCreatedAt : SDF :=
  ⟨["message_id", "sequence_id", "partition_id"],
   [[("message_id", Val.vStr "m"), ("sequence_id", Val.vInt 1),
     ("partition_id", Val.vInt 0)]]⟩

/-- A nonempty persisted table to observe that failing runs leave it as is. -/
def tableW : List SRow := [[("message_id", Val.vStr "old")]]

/-! ## The asyncio publisher/subscriber simulation

`labs/day04_pubsub/day04_pubsub_sim.py` runs `publisher` and `subscriber`
concurrently over one `asyncio.Queue`.  The embedding makes time and
randomness explicit: a trace `Nat → StepRand` supplies the pseudo-random
draws of each main-loop iteration (the values `random` would produce — with
a fixed seed the trace is fixed), and `time.time()` readings are the start
time `t0` plus the virtual time accumulated by the sleeps.  Each `queue.put`
becomes an `Event` carrying its fire time: the publisher's own puts fire at
the loop time, a slow path (`asyncio.create_task(delayed_send(...))`) fires
`0.2` later, and the sentinel fires when the loop ends.  As the subscriber
never suspends between `get` and `task_done` and the channel never fills in
the runs considered (capacity is not modelled; a bounded queue only throttles
the producer and keeps FIFO order), the FIFO delivery order is the events
sorted stably by fire time.  The subscriber drains until the sentinel; items
behind the sentinel are never dequeued.  `joinCompletes` records whether the
run drained fully — every enqueued item dequeued and acknowledged — which is
the barrier semantics the spec demands; the code's `await queue.join()` does
not ensure it, since its counter can reach zero (releasing the caller)
before a still-pending slow-path send has even enqueued its item.  The
`origin` field is ghost provenance used only to state theorems. -/

structure Message where
  message_id : String
  sequence_id : Int
  partition_id : Int
  created_at : ℚ
  value : Int
  zipcode : String
deriving DecidableEq, Repr

/-- The pseudo-random draws consumed by one iteration of the publisher loop:
the `random.uniform(base_delay - jitter, base_delay + jitter)` sample, the
partition from `random.randint(0, partitions - 1)`, the `random_id()`, the
value from `random.randint(100, 10000)`, the `random_zipcode()`, the two
Bernoulli outcomes `random.random() < slow_prob` / `< dup_prob`, and the
index of `random.choice(produced)` (reduced modulo the history length, which
is nonempty whenever the choice is drawn). -/
structure StepRand where
  delayDraw : ℚ
  partitionDraw : Int
  idDraw : String
  valueDraw : Int
  zipDraw : String
  slowDraw : Bool
  dupDraw : Bool
  dupChoice : Nat
deriving DecidableEq, Repr

inductive Origin where
  | immediate
  | slowPath
  | duplicate
  | sentinel
deriving DecidableEq, Repr

/-- One `queue.put`: when it fires, what it carries (`none` = the completion
sentinel `None`), and ghost provenance. -/
structure Event where
  fire : ℚ
  payload : Option Message
  origin : Origin
deriving DecidableEq, Repr

/-- The `extra_delay=0.2` of `delayed_send`. -/
def slowExtraDelay : ℚ := 1 / 5

structure PubState where
  now : ℚ
  produced : List Message
  events : List Event
deriving DecidableEq, Repr

/-- The clamp `max(0.0, q)`, written with an explicit decidable comparison. -/
def clamp0 (q : ℚ) : ℚ := if 0 ≤ q then q else 0

/-- One iteration of the `for seq in range(1, total_messages + 1)` loop of
`publisher` (day04 lines 83–110): sleep `max(0.0, uniform(...))`, build the
message stamped `created_at = time.time()`, append it to `produced`, send it
(slow path or immediate), and possibly re-send a uniformly chosen previous
message unchanged. -/
def pubStep (tr : Nat → StepRand) (seq : Nat) (st : PubState) : PubState :=
  let r := tr seq
  let delay := clamp0 r.delayDraw
  let now := st.now + delay
  let msg : Message :=
    ⟨r.idDraw, (seq : Int), r.partitionDraw, now, r.valueDraw, r.zipDraw⟩
  let produced := st.produced ++ [msg]
  let ev1 : Event :=
    if r.slowDraw then ⟨now + slowExtraDelay, some msg, Origin.slowPath⟩
    else ⟨now, some msg, Origin.immediate⟩
  let events := st.events ++ [ev1]
  let events2 :=
    if produced ≠ [] ∧ r.dupDraw then
      events ++ [⟨now, some (produced.getD (r.dupChoice % produced.length) msg),
        Origin.duplicate⟩]
    else events
  ⟨now, produced, events2⟩

/-- A copy of `pubStep` with its two absolute times (the loop time `T` and the slow
fire time `Ts = T + 0.2`) abstracted; `pubStep` is exactly `buildStep`
applied at those times (proof infrastructure for the clock-shift lemmas). -/
def buildStep (tr : Nat → StepRand) (seq : Nat) (T Ts : ℚ)
    (P : List Message) (E : List Event) : PubState :=
  let r := tr seq
  let msg : Message :=
    ⟨r.idDraw, (seq : Int), r.partitionDraw, T, r.valueDraw, r.zipDraw⟩
  let produced := P ++ [msg]
  let ev1 : Event :=
    if r.slowDraw then ⟨Ts, some msg, Origin.slowPath⟩
    else ⟨T, some msg, Origin.immediate⟩
  let events := E ++ [ev1]
  let events2 :=
    if produced ≠ [] ∧ r.dupDraw then
      events ++ [⟨T, some (produced.getD (r.dupChoice % produced.length) msg),
        Origin.duplicate⟩]
    else events
  ⟨T, produced, events2⟩

def pubLoop (tr : Nat → StepRand) : Nat → Nat → PubState → PubState
  | 0, _, st => st
  | n + 1, seq, st => pubLoop tr n (seq + 1) (pubStep tr seq st)

/-- The whole `publisher` call: run the loop for `total_messages` iterations
starting at sequence 1 and time `t0`, then `await queue.put(None)`. -/
def publisherRun (tr : Nat → StepRand) (total_messages : Nat) (t0 : ℚ) :
    PubState :=
  let st := pubLoop tr total_messages 1 ⟨t0, [], []⟩
  ⟨st.now, st.produced, st.events ++ [⟨st.now, none, Origin.sentinel⟩]⟩

/-- The coroutine `subscriber` (day04 lines 127–165): dequeue in FIFO order until the
sentinel, stamping `arrival_ts` (the dequeue time) and a 1-based
`arrival_index`; returns the received records and the items left behind the
sentinel (never dequeued).  One JSONL line is appended per record, so the
returned list is also the file content. -/
def subRun : List Event → Nat → List Rec × List Event
  | [], _ => ([], [])
  | e :: rest, idx =>
      match e.payload with
      | none => ([], rest)
      | some m =>
          let rcrd : Rec :=
            { message_id := m.message_id
              sequence_id := m.sequence_id
              partition_id := m.partition_id
              created_at := m.created_at
              value := m.value
              zipcode := m.zipcode
              arrival_ts := e.fire
              arrival_index := (idx + 1 : Int) }
          let res := subRun rest (idx + 1)
          (rcrd :: res.1, res.2)

structure SimResult where
  produced : List Message
  received : List Rec
  leftover : List Event
  events : List Event
deriving DecidableEq, Repr

/-- The entry point `main`: run the publisher, deliver the enqueued items to the subscriber
in FIFO (fire-time) order. -/
def runSim (tr : Nat → StepRand) (total_messages : Nat) (t0 : ℚ) : SimResult :=
  let ps := publisherRun tr total_messages t0
  let ordered := sortOn (fun e => e.fire) ps.events
  let res := subRun ordered 0
  ⟨ps.produced, res.1, res.2, ps.events⟩

/-- Whether the run drained fully: every enqueued item was dequeued and
acknowledged with `task_done`, the postcondition the spec assigns to the
completion/drain barrier.  The code's `await queue.join()` does not
establish it: an un-fired slow-path send is not yet counted, so `join()`'s
counter can hit zero and release the caller before that item is ever
enqueued, and once it lands behind the sentinel it is never dequeued. -/
def joinCompletes (s : SimResult) : Bool := s.leftover.isEmpty

/-- The Analyzer's `missing` set (day04 lines 185–192): produced
`sequence_id`s absent from the received records, in ascending order (the
produced ids are already distinct and ascending). -/
def missingSeqIds (s : SimResult) : List Int :=
  (s.produced.map (fun m => m.sequence_id)).filter
    (fun q => decide (q ∉ s.received.map (fun r => r.sequence_id)))

/-- A trace whose every step draws the slow path and no duplicate, with zero
jitter delay. -/
def trSlow : Nat → StepRand := fun _ => ⟨0, 0, "m1", 100, "12345", true, false, 0⟩

/-- A trace whose every step draws the fast path and no duplicate. -/
def trPlain : Nat → StepRand := fun _ => ⟨0, 0, "m1", 100, "12345", false, false, 0⟩

/-- The single message produced by `runSim trPlain 1 0`. -/
def msg1W : Message := ⟨"m1", 1, 0, 0, 100, "12345"⟩

/-- Shift a producer-side timestamp: the same run started `c` later. -/
def shiftMsg (c : ℚ) (m : Message) : Message :=
  { m with created_at := m.created_at + c }

def shiftEvent (c : ℚ) (e : Event) : Event :=
  { e with
    fire := e.fire + c
    payload := e.payload.map (shiftMsg c) }

def shiftRec (c : ℚ) (r : Rec) : Rec :=
  { r with
    created_at := r.created_at + c
    arrival_ts := r.arrival_ts + c }

def shiftState (c : ℚ) (st : PubState) : PubState :=
  ⟨st.now + c, st.produced.map (shiftMsg c), st.events.map (shiftEvent c)⟩

/-- Forget the wall-clock field of a produced message. -/
def stripMsgTime (m : Message) : Message := { m with created_at := 0 }

/-- Forget the two wall-clock fields of a received record. -/
def stripRecTimes (r : Rec) : Rec := { r with created_at := 0, arrival_ts := 0 }

/-! ### Facts about the modelled Polars operations -/

theorem ordIns_cons (key : α → ℚ) (x y : α) (ys : List α) :
    ordIns key x (y :: ys)
      = if key x ≤ key y then x :: y :: ys else y :: ordIns key x ys := rfl

theorem mem_ordIns {key : α → ℚ} {x z : α} :
    ∀ {l : List α}, z ∈ ordIns key x l ↔ z = x ∨ z ∈ l
  | [] => by simp [ordIns]
  | y :: ys => by
      by_cases h : key x ≤ key y
      · simp [ordIns, h]
      · simp only [ordIns, if_neg h, List.mem_cons, mem_ordIns (l := ys)]
        tauto

theorem sortedOn_ordIns {key : α → ℚ} {x : α} :
    ∀ {l : List α}, SortedOn key l → SortedOn key (ordIns key x l)
  | [], _ => by simp [SortedOn, ordIns]
  | y :: ys, h => by
      rw [SortedOn, List.pairwise_cons] at h
      by_cases hxy : key x ≤ key y
      · rw [SortedOn, ordIns, if_pos hxy]
        refine List.Pairwise.cons ?_ (List.Pairwise.cons h.1 h.2)
        intro z hz
        rcases List.mem_cons.mp hz with rfl | hz
        · exact hxy
        · exact le_trans hxy (h.1 z hz)
      · rw [SortedOn, ordIns, if_neg hxy]
        refine List.Pairwise.cons ?_ (sortedOn_ordIns h.2)
        intro z hz
        rcases mem_ordIns.mp hz with rfl | hz
        · exact le_of_lt (lt_of_not_le hxy)
        · exact h.1 z hz

theorem sortedOn_sortOn {key : α → ℚ} :
    ∀ l : List α, SortedOn key (sortOn key l)
  | [] => by simp [SortedOn, sortOn]
  | x :: xs => by
      rw [sortOn]
      exact sortedOn_ordIns (sortedOn_sortOn xs)

theorem mem_sortOn {key : α → ℚ} {z : α} :
    ∀ {l : List α}, z ∈ sortOn key l ↔ z ∈ l
  | [] => Iff.rfl
  | x :: xs => by
      rw [sortOn, mem_ordIns, mem_sortOn (l := xs), List.mem_cons]

theorem sortOn_eq_self {key : α → ℚ} :
    ∀ {l : List α}, SortedOn key l → sortOn key l = l
  | [], _ => rfl
  | x :: xs, h => by
      rw [SortedOn, List.pairwise_cons] at h
      rw [sortOn, sortOn_eq_self h.2]
      cases xs with
      | nil => rfl
      | cons y ys =>
          rw [ordIns, if_pos (h.1 y (List.mem_cons_self y ys))]

theorem map_ordIns {g : α → β} {k1 : α → ℚ} {k2 : β → ℚ}
    (hk : ∀ a b, (k2 (g a) ≤ k2 (g b)) ↔ (k1 a ≤ k1 b)) (x : α) :
    ∀ l : List α, (ordIns k1 x l).map g = ordIns k2 (g x) (l.map g)
  | [] => rfl
  | y :: ys => by
      rw [List.map_cons, ordIns_cons, ordIns_cons]
      by_cases h : k1 x ≤ k1 y
      · rw [if_pos h, if_pos ((hk x y).mpr h), List.map_cons, List.map_cons]
      · rw [if_neg h, if_neg (fun hc => h ((hk x y).mp hc)), List.map_cons,
          map_ordIns hk x ys]

theorem map_sortOn {g : α → β} {k1 : α → ℚ} {k2 : β → ℚ}
    (hk : ∀ a b, (k2 (g a) ≤ k2 (g b)) ↔ (k1 a ≤ k1 b)) :
    ∀ l : List α, (sortOn k1 l).map g = sortOn k2 (l.map g)
  | [] => rfl
  | x :: xs => by
      rw [sortOn, List.map_cons, sortOn, ← map_sortOn hk xs, map_ordIns hk]

theorem uniqueFirstBy_sublist [DecidableEq β] (f : α → β) :
    ∀ l : List α, List.Sublist (uniqueFirstBy f l) l
  | [] => List.Sublist.refl []
  | x :: xs => by
      rw [uniqueFirstBy]
      exact ((List.filter_sublist _).trans (uniqueFirstBy_sublist f xs)).cons₂ x

theorem nodup_map_uniqueFirstBy [DecidableEq β] (f : α → β) :
    ∀ l : List α, ((uniqueFirstBy f l).map f).Nodup
  | [] => List.nodup_nil
  | x :: xs => by
      rw [uniqueFirstBy, List.map_cons, List.nodup_cons]
      constructor
      · intro hmem
        rcases List.mem_map.mp hmem with ⟨y, hy, hfy⟩
        exact (of_decide_eq_true ((List.mem_filter.mp hy).2)) hfy
      · exact (nodup_map_uniqueFirstBy f xs).sublist
          ((List.filter_sublist _).map f)

theorem uniqueFirstBy_eq_self [DecidableEq β] (f : α → β) :
    ∀ l : List α, (l.map f).Nodup → uniqueFirstBy f l = l
  | [], _ => rfl
  | x :: xs, h => by
      rw [List.map_cons, List.nodup_cons] at h
      rw [uniqueFirstBy, uniqueFirstBy_eq_self f xs h.2, List.filter_eq_self.mpr]
      intro y hy
      exact decide_eq_true (fun hfy => h.1 (hfy ▸ List.mem_map_of_mem f hy))

theorem uniqueLastBy_sublist [DecidableEq β] (f : α → β) :
    ∀ l : List α, List.Sublist (uniqueLastBy f l) l
  | [] => List.Sublist.refl []
  | x :: xs => by
      rw [uniqueLastBy]
      by_cases h : f x ∈ xs.map f
      · rw [if_pos h]
        exact (uniqueLastBy_sublist f xs).cons x
      · rw [if_neg h]
        exact (uniqueLastBy_sublist f xs).cons₂ x

theorem nodup_map_uniqueLastBy [DecidableEq β] (f : α → β) :
    ∀ l : List α, ((uniqueLastBy f l).map f).Nodup
  | [] => List.nodup_nil
  | x :: xs => by
      rw [uniqueLastBy]
      by_cases h : f x ∈ xs.map f
      · rw [if_pos h]
        exact nodup_map_uniqueLastBy f xs
      · rw [if_neg h, List.map_cons, List.nodup_cons]
        refine ⟨fun hc => h ?_, nodup_map_uniqueLastBy f xs⟩
        exact ((uniqueLastBy_sublist f xs).map f).mem hc

theorem uniqueLastBy_eq_self [DecidableEq β] (f : α → β) :
    ∀ l : List α, (l.map f).Nodup → uniqueLastBy f l = l
  | [], _ => rfl
  | x :: xs, h => by
      rw [List.map_cons, List.nodup_cons] at h
      rw [uniqueLastBy, if_neg h.1, uniqueLastBy_eq_self f xs h.2]

theorem lastSingleton_cons_of_ne_nil {x : α} :
    ∀ {l : List α}, l ≠ [] → lastSingleton (x :: l) = lastSingleton l
  | [], h => absurd rfl h
  | _ :: _, _ => rfl

theorem uniqueLastBy_filter_key [DecidableEq β] (f : α → β) (kv : β) :
    ∀ l : List α,
      (uniqueLastBy f l).filter (fun y => decide (f y = kv))
        = lastSingleton (l.filter (fun y => decide (f y = kv)))
  | [] => rfl
  | x :: xs => by
      by_cases hmem : f x ∈ xs.map f
      · rw [uniqueLastBy, if_pos hmem, uniqueLastBy_filter_key f kv xs]
        by_cases hx : f x = kv
        · rw [List.filter_cons_of_pos (by simp [hx]),
            lastSingleton_cons_of_ne_nil]
          rcases List.mem_map.mp hmem with ⟨y, hy, hfy⟩
          exact List.ne_nil_of_mem
            (List.mem_filter.mpr ⟨hy, by simp [hfy, hx]⟩)
        · rw [List.filter_cons_of_neg (by simp [hx])]
      · rw [uniqueLastBy, if_neg hmem]
        by_cases hx : f x = kv
        · have hnil : xs.filter (fun y => decide (f y = kv)) = [] := by
            rw [List.filter_eq_nil_iff]
            intro y hy
            simp only [decide_eq_true_eq]
            intro hc
            exact hmem (by
              rw [← hc.trans hx.symm]
              exact List.mem_map_of_mem f hy)
          rw [List.filter_cons_of_pos (by simp [hx]),
            List.filter_cons_of_pos (by simp [hx]),
            uniqueLastBy_filter_key f kv xs, hnil]
          rfl
        · rw [List.filter_cons_of_neg (by simp [hx]),
            List.filter_cons_of_neg (by simp [hx]),
            uniqueLastBy_filter_key f kv xs]

theorem map_headSingleton (g : α → β) :
    ∀ l : List α, (headSingleton l).map g = headSingleton (l.map g)
  | [] => rfl
  | _ :: _ => rfl

theorem map_lastSingleton (g : α → β) :
    ∀ l : List α, (lastSingleton l).map g = lastSingleton (l.map g)
  | [] => rfl
  | [_] => rfl
  | _ :: y :: ys => map_lastSingleton g (y :: ys)

/-! ### Facts about the strategy embeddings -/

theorem eager_dedup_fst (b : List Rec) :
    (eager_dedup b).1
      = uniqueFirstBy (fun r => r.composite_hash) (b.map addHashCol) := rfl

theorem merge_dedup_fst (b : List Rec) :
    (merge_dedup_polars b).1
      = uniqueLastBy (fun r => r.message_id)
          (sortOn (fun r => r.created_at) (b.map addHashCol)) := rfl

/-- Re-attaching `composite_hash` overwrites it with the same value, because
the hash reads only the three key fields, which the annotation leaves
untouched. -/
theorem addHashCol_addHashCol (r : Rec) :
    addHashCol (addHashCol r) = addHashCol r := rfl

theorem addHashCol_of_mem_map {r : Rec} {l : List Rec}
    (h : r ∈ l.map addHashCol) : addHashCol r = r := by
  rcases List.mem_map.mp h with ⟨r0, _, rfl⟩
  exact addHashCol_addHashCol r0


theorem hash_recA_recB :
    compute_composite_hash recA = compute_composite_hash recB := by
  unfold compute_composite_hash
  have h : compositeKeyString recA = compositeKeyString recB := by decide
  rw [h]

/-- C3: for every record batch `b`, `Eager(Eager(b)) = Eager(b)` and
`Merge(Merge(b)) = Merge(b)` — re-applying the Eager or Merge deduplication
strategy to its own canonical output does not change the result. -/
theorem C3_eager_merge_idempotent (b : List Rec) :
    (eager_dedup ((eager_dedup b).1)).1 = (eager_dedup b).1
    ∧ (merge_dedup_polars ((merge_dedup_polars b).1)).1
        = (merge_dedup_polars b).1 := by
  constructor
  · have hout : ∀ r ∈ (eager_dedup b).1, addHashCol r = r := by
      intro r hr
      exact addHashCol_of_mem_map ((uniqueFirstBy_sublist _ _).mem hr)
    have hmap : (eager_dedup b).1.map addHashCol = (eager_dedup b).1 :=
      (List.map_congr_left hout).trans (List.map_id _)
    rw [eager_dedup_fst ((eager_dedup b).1), hmap]
    exact uniqueFirstBy_eq_self _ _ (nodup_map_uniqueFirstBy _ _)
  · have hsub : List.Sublist (merge_dedup_polars b).1
        (sortOn (fun r => r.created_at) (b.map addHashCol)) :=
      uniqueLastBy_sublist _ _
    have hout : ∀ r ∈ (merge_dedup_polars b).1, addHashCol r = r := by
      intro r hr
      exact addHashCol_of_mem_map (mem_sortOn.mp (hsub.mem hr))
    have hmap : (merge_dedup_polars b).1.map addHashCol
        = (merge_dedup_polars b).1 :=
      (List.map_congr_left hout).trans (List.map_id _)
    have hsorted : SortedOn (fun r => r.created_at) (merge_dedup_polars b).1 :=
      List.Pairwise.sublist hsub (sortedOn_sortOn _)
    rw [merge_dedup_fst ((merge_dedup_polars b).1), hmap,
      sortOn_eq_self hsorted]
    exact uniqueLastBy_eq_self _ _ (nodup_map_uniqueLastBy _ _)

theorem ordIns_perm (key : α → ℚ) (x : α) :
    ∀ l : List α, List.Perm (ordIns key x l) (x :: l)
  | [] => List.Perm.refl _
  | y :: ys => by
      by_cases h : key x ≤ key y
      · rw [ordIns_cons, if_pos h]
      · rw [ordIns_cons, if_neg h]
        exact ((ordIns_perm key x ys).cons y).trans (List.Perm.swap x y ys)

theorem sortOn_perm (key : α → ℚ) :
    ∀ l : List α, List.Perm (sortOn key l) l
  | [] => List.Perm.refl _
  | x :: xs => by
      rw [sortOn]
      exact (ordIns_perm key x (sortOn key xs)).trans
        ((sortOn_perm key xs).cons x)

theorem mem_lastSingleton {x : α} :
    ∀ {l : List α}, x ∈ lastSingleton l → x ∈ l
  | [], h => h
  | [_], h => h
  | _ :: w :: ws, h =>
      List.mem_cons_of_mem _ (mem_lastSingleton (l := w :: ws) h)

theorem lastSingleton_length_of_ne_nil :
    ∀ {l : List α}, l ≠ [] → (lastSingleton l).length = 1
  | [], h => absurd rfl h
  | [_], _ => rfl
  | _ :: w :: ws, _ =>
      lastSingleton_length_of_ne_nil (l := w :: ws) (List.cons_ne_nil w ws)

/-- In a list sorted by `key`, every element's key is at most the key of the
last element. -/
theorem le_lastSingleton {key : α → ℚ} :
    ∀ {l : List α}, SortedOn key l → ∀ {x y : α}, x ∈ l
      → y ∈ lastSingleton l → key x ≤ key y
  | [], _, _, _, hx, _ => absurd hx (List.not_mem_nil _)
  | [z], _, x, y, hx, hy => by
      rcases List.mem_singleton.mp hx with rfl
      have hy2 : y ∈ [x] := hy
      rcases List.mem_singleton.mp hy2 with rfl
      exact le_refl _
  | z :: w :: ws, h, x, y, hx, hy => by
      rw [SortedOn, List.pairwise_cons] at h
      have hy2 : y ∈ lastSingleton (w :: ws) := hy
      rcases List.mem_cons.mp hx with rfl | hx2
      · exact h.1 y (mem_lastSingleton hy2)
      · exact le_lastSingleton h.2 hx2 hy2

/-- The swapped order of the annotated batch `[r4A, r4B]` is a permitted
result of `df.sort("created_at")`: a permutation, and sorted because the two
`created_at` values are equal. -/
theorem isSortOf_r4_swapped :
    IsSortOf (fun r => r.created_at) ([r4A, r4B].map addHashCol)
      [addHashCol r4B, addHashCol r4A] := by
  constructor
  · exact List.Perm.swap (addHashCol r4A) (addHashCol r4B) []
  · rw [SortedOn, List.pairwise_cons]
    refine ⟨?_, List.pairwise_singleton _ _⟩
    intro z hz
    rcases List.mem_singleton.mp hz with rfl
    norm_num [addHashCol, r4A, r4B]

/-- C4 counterexample: the claim fixes the tie winner for equal `created_at`
to the record occurring later in input-batch order, but the code's
`df.sort("created_at")` (Polars default `maintain_order=False`) guarantees
no order among equal keys: the swapped order is a permitted sort of the
batch `[r4A, r4B]`, and under it the Merge pipeline keeps `r4A` — the
EARLIER record — although `r4B` shares its `message_id` and `created_at` and
comes later in the batch. -/
theorem C4_counterexample :
    mergeOutcome [r4A, r4B] [addHashCol r4B, addHashCol r4A] [addHashCol r4A]
    ∧ r4A.message_id = r4B.message_id
    ∧ r4A.created_at = r4B.created_at
    ∧ r4A ≠ r4B := by
  refine ⟨⟨isSortOf_r4_swapped, ?_⟩, rfl, rfl, by decide⟩
  simp [uniqueLastBy, addHashCol, r4A, r4B]

/-- C4 as amended: for every input batch and every sort order the Polars
contract permits for `df.sort("created_at")`, the Merge output contains
exactly one record per `message_id` occurring in the batch (none for any
other), and that record is one of the batch's records with that `message_id`
attaining the maximal `created_at` among them; which of several maximal
records is kept is left open (the library fixes no tie order).  The first
conjunct places the deterministic embedding `merge_dedup_polars` itself
among the permitted outcomes. -/
theorem C4_merge_keeps_max_created_at (b s : List Rec) (kv : String)
    (hs : IsSortOf (fun r => r.created_at) (b.map addHashCol) s) :
    mergeOutcome b (sortOn (fun r => r.created_at) (b.map addHashCol))
        (merge_dedup_polars b).1
    ∧ ((uniqueLastBy (fun r => r.message_id) s).filter
          (fun r => decide (r.message_id = kv))).length
        = (if kv ∈ b.map (fun r => r.message_id) then 1 else 0)
    ∧ ∀ r ∈ (uniqueLastBy (fun r => r.message_id) s).filter
          (fun r => decide (r.message_id = kv)),
        eraseCompositeHash r
            ∈ (b.filter (fun r2 => decide (r2.message_id = kv))).map
                eraseCompositeHash
        ∧ ∀ r2 ∈ b.filter (fun r2 => decide (r2.message_id = kv)),
            r2.created_at ≤ r.created_at := by
  have hmid : (b.map addHashCol).map (fun r => r.message_id)
      = b.map (fun r => r.message_id) := by
    rw [List.map_map]
    exact List.map_congr_left (fun a _ => rfl)
  have hin : kv ∈ b.map (fun r => r.message_id)
      ↔ kv ∈ s.map (fun r => r.message_id) := by
    rw [← hmid]
    exact ((hs.1.map (fun r => r.message_id)).mem_iff).symm
  have hfil : s.filter (fun r => decide (r.message_id = kv)) = []
      ↔ kv ∉ s.map (fun r => r.message_id) := by
    rw [List.filter_eq_nil_iff]
    constructor
    · intro h hmem
      rcases List.mem_map.mp hmem with ⟨r, hr, hrk⟩
      exact h r hr (decide_eq_true hrk)
    · intro h r hr hdec
      exact h (List.mem_map.mpr ⟨r, hr, of_decide_eq_true hdec⟩)
  refine ⟨⟨⟨sortOn_perm _ _, sortedOn_sortOn _⟩, merge_dedup_fst b⟩, ?_, ?_⟩
  · by_cases hkv : kv ∈ b.map (fun r => r.message_id)
    · rw [uniqueLastBy_filter_key, if_pos hkv]
      apply lastSingleton_length_of_ne_nil
      intro hnil
      exact (hfil.mp hnil) (hin.mp hkv)
    · rw [uniqueLastBy_filter_key, if_neg hkv,
        hfil.mpr (fun hmem => hkv (hin.mpr hmem))]
      rfl
  · intro r hr
    rw [uniqueLastBy_filter_key] at hr
    have hrs : r ∈ s.filter (fun y => decide (y.message_id = kv)) :=
      mem_lastSingleton hr
    have hrk : r.message_id = kv :=
      of_decide_eq_true (List.mem_filter.mp hrs).2
    have hrb : r ∈ b.map addHashCol :=
      hs.1.mem_iff.mp (List.mem_filter.mp hrs).1
    rcases List.mem_map.mp hrb with ⟨r0, hr0, rfl⟩
    constructor
    · exact List.mem_map.mpr
        ⟨r0, List.mem_filter.mpr ⟨hr0, decide_eq_true hrk⟩, rfl⟩
    · intro r2 hr2
      have h2k : r2.message_id = kv :=
        of_decide_eq_true (List.mem_filter.mp hr2).2
      have h2s : addHashCol r2 ∈ s :=
        hs.1.mem_iff.mpr
          (List.mem_map_of_mem _ (List.mem_filter.mp hr2).1)
      have h2f : addHashCol r2
          ∈ s.filter (fun y => decide (y.message_id = kv)) :=
        List.mem_filter.mpr ⟨h2s, decide_eq_true h2k⟩
      have hsorted : SortedOn (fun r3 => r3.created_at)
          (s.filter (fun y => decide (y.message_id = kv))) :=
        List.Pairwise.sublist (List.filter_sublist s) hs.2
      show (addHashCol r2).created_at ≤ (addHashCol r0).created_at
      exact le_lastSingleton hsorted h2f hr

/-- Witness for C4 (amended) at the concrete batch `[r4A, r4B]` and the
permitted sort order `[addHashCol r4B, addHashCol r4A]`: the hypothesis
holds there, and the Merge output has exactly one record for the
`message_id` `"m"` carried by both batch records. -/
theorem C4_merge_keeps_max_created_at_witness :
    IsSortOf (fun r => r.created_at) ([r4A, r4B].map addHashCol)
        [addHashCol r4B, addHashCol r4A]
    ∧ ((uniqueLastBy (fun r => r.message_id)
          [addHashCol r4B, addHashCol r4A]).filter
            (fun r => decide (r.message_id = "m"))).length
        = (if "m" ∈ [r4A, r4B].map (fun r => r.message_id) then 1 else 0) :=
  ⟨isSortOf_r4_swapped,
   (C4_merge_keeps_max_created_at [r4A, r4B]
      [addHashCol r4B, addHashCol r4A] "m" isSortOf_r4_swapped).2.1⟩

/-- C6: the Bronze (append-only) strategy discards no record — its output has
exactly the input's records (same length, same underlying fields), each
annotated with a composite-key hash and a full-payload hash — and applying it
twice appends the batch to the persisted table twice (doubling the record
count from an empty table) while producing identical per-record hash values
both times. -/
theorem C6_bronze_append (df table : List Rec) :
    ((bronzeAppendProcess df table).1).length = df.length
    ∧ ((bronzeAppendProcess df table).1).map stripAddedCols
        = df.map stripAddedCols
    ∧ ((bronzeAppendProcess df table).1).all
        (fun r => r.composite_hash.isSome && r.payload_hash.isSome) = true
    ∧ (bronzeAppendProcess df table).2
        = table ++ (bronzeAppendProcess df table).1
    ∧ ((bronzeAppendProcess df ((bronzeAppendProcess df []).2)).2).length
        = 2 * df.length
    ∧ (bronzeAppendProcess df ((bronzeAppendProcess df []).2)).1
        = (bronzeAppendProcess df table).1 := by
  refine ⟨by simp [bronzeAppendProcess], ?_, ?_, rfl, ?_, rfl⟩
  · show (df.map bronzeAnnotate).map stripAddedCols = df.map stripAddedCols
    rw [List.map_map]
    exact List.map_congr_left (fun a _ => rfl)
  · rw [List.all_eq_true]
    intro r hr
    have hr2 : r ∈ df.map bronzeAnnotate := hr
    rcases List.mem_map.mp hr2 with ⟨r0, _, rfl⟩
    rfl
  · show (([] ++ df.map bronzeAnnotate) ++ df.map bronzeAnnotate).length
        = 2 * df.length
    simp [two_mul]

/-- C10: `recA` and `recB` carry different composite keys (different
`message_id`s, in particular), yet their unseparated key concatenations are
both the string `"a123"`, so their SHA-256 composite-key hashes are equal,
and the Eager strategy — which deduplicates on this hash — collapses the two
distinct records into a single canonical record. -/
theorem C10_composite_hash_collision :
    recA.message_id ≠ recB.message_id
    ∧ (recA.message_id, recA.sequence_id, recA.partition_id)
        ≠ (recB.message_id, recB.sequence_id, recB.partition_id)
    ∧ compositeKeyString recA = "a123"
    ∧ compositeKeyString recB = "a123"
    ∧ compute_composite_hash recA = compute_composite_hash recB
    ∧ (eager_dedup [recA, recB]).1.length = 1 := by
  refine ⟨by decide, by decide, by decide, by decide, hash_recA_recB, ?_⟩
  have hkey : (addHashCol recB).composite_hash
      = (addHashCol recA).composite_hash := by
    show some (compute_composite_hash recB) = some (compute_composite_hash recA)
    rw [hash_recA_recB]
  rw [eager_dedup_fst]
  show (uniqueFirstBy (fun r => r.composite_hash)
      [addHashCol recA, addHashCol recB]).length = 1
  simp [uniqueFirstBy, hkey]

/-! ### Facts about the simulation -/

theorem getD_mem_or (l : List α) (i : Nat) (d : α) :
    l.getD i d ∈ l ∨ l.getD i d = d := by
  induction l generalizing i with
  | nil => right; simp
  | cons x xs ih =>
      cases i with
      | zero => left; simp
      | succ j =>
          rcases ih j with h | h
          · left
            rw [List.getD_cons_succ]
            exact List.mem_cons_of_mem x h
          · right
            rw [List.getD_cons_succ]
            exact h

theorem getD_map (f : α → β) (l : List α) (i : Nat) (d : α) :
    (l.map f).getD i (f d) = f (l.getD i d) := by
  induction l generalizing i with
  | nil => simp
  | cons x xs ih => cases i <;> simp [ih]

theorem pubStep_produced (tr : Nat → StepRand) (seq : Nat) (st : PubState) :
    (pubStep tr seq st).produced = st.produced
      ++ [⟨(tr seq).idDraw, (seq : Int), (tr seq).partitionDraw,
          st.now + clamp0 (tr seq).delayDraw, (tr seq).valueDraw,
          (tr seq).zipDraw⟩] := rfl

theorem pubStep_eq_buildStep (tr : Nat → StepRand) (seq : Nat)
    (st : PubState) :
    pubStep tr seq st
      = buildStep tr seq (st.now + clamp0 (tr seq).delayDraw)
          (st.now + clamp0 (tr seq).delayDraw + slowExtraDelay)
          st.produced st.events := rfl

theorem buildStep_shift (tr : Nat → StepRand) (seq : Nat) (c T Ts : ℚ)
    (P : List Message) (E : List Event) :
    buildStep tr seq (T + c) (Ts + c) (P.map (shiftMsg c))
        (E.map (shiftEvent c))
      = shiftState c (buildStep tr seq T Ts P E) := by
  have hgd : ∀ (l : List Message) (m : Message) (i : Nat),
      shiftMsg c ((l ++ [m]).getD (i % (l.length + 1)) m)
        = (l.map (shiftMsg c) ++ [shiftMsg c m]).getD (i % (l.length + 1))
            (shiftMsg c m) := by
    intro l m i
    have hmap : l.map (shiftMsg c) ++ [shiftMsg c m]
        = (l ++ [m]).map (shiftMsg c) := by
      simp
    rw [hmap, getD_map]
  cases hslow : (tr seq).slowDraw <;> cases hdup : (tr seq).dupDraw <;>
    · simp only [buildStep, shiftState, hslow, hdup, ne_eq,
        List.append_eq_nil, List.cons_ne_nil, List.map_append, List.map_cons,
        List.map_nil, shiftEvent, Option.map_some, Option.map_some', hgd,
        and_false, and_true,
        eq_self_iff_true, Bool.false_eq_true, not_false_eq_true, ite_true,
        ite_false, List.length_map, List.length_append, List.length_cons,
        List.length_nil, zero_add]
      rfl

theorem pubStep_shift (tr : Nat → StepRand) (seq : Nat) (c : ℚ)
    (st : PubState) :
    pubStep tr seq (shiftState c st) = shiftState c (pubStep tr seq st) := by
  rw [pubStep_eq_buildStep tr seq (shiftState c st),
    pubStep_eq_buildStep tr seq st]
  have h1 : (shiftState c st).now = st.now + c := rfl
  have h2 : (shiftState c st).produced = st.produced.map (shiftMsg c) := rfl
  have h3 : (shiftState c st).events = st.events.map (shiftEvent c) := rfl
  rw [h1, h2, h3, add_right_comm st.now c (clamp0 (tr seq).delayDraw),
    add_right_comm (st.now + clamp0 (tr seq).delayDraw) c slowExtraDelay]
  exact buildStep_shift tr seq c (st.now + clamp0 (tr seq).delayDraw)
    (st.now + clamp0 (tr seq).delayDraw + slowExtraDelay) st.produced st.events

theorem pubLoop_shift (tr : Nat → StepRand) (c : ℚ) :
    ∀ (n seq : Nat) (st : PubState),
      pubLoop tr n seq (shiftState c st) = shiftState c (pubLoop tr n seq st)
  | 0, _, _ => rfl
  | n + 1, seq, st => by
      rw [pubLoop, pubLoop, pubStep_shift,
        pubLoop_shift tr c n (seq + 1) (pubStep tr seq st)]

theorem publisherRun_shift (tr : Nat → StepRand) (N : Nat) (t0 c : ℚ) :
    publisherRun tr N (t0 + c) = shiftState c (publisherRun tr N t0) := by
  show (let st := pubLoop tr N 1 ⟨t0 + c, [], []⟩
    (⟨st.now, st.produced, st.events ++ [⟨st.now, none, Origin.sentinel⟩]⟩ :
      PubState)) = _
  have hinit : (⟨t0 + c, [], []⟩ : PubState) = shiftState c ⟨t0, [], []⟩ := rfl
  rw [hinit, pubLoop_shift]
  simp [publisherRun, shiftState, shiftEvent]

theorem subRun_shift (c : ℚ) :
    ∀ (l : List Event) (idx : Nat),
      subRun (l.map (shiftEvent c)) idx
        = ((subRun l idx).1.map (shiftRec c),
           (subRun l idx).2.map (shiftEvent c))
  | [], _ => rfl
  | e :: rest, idx => by
      cases hp : e.payload with
      | none => simp [subRun, shiftEvent, hp]
      | some m =>
          simp only [subRun, shiftEvent, hp, List.map_cons, Option.map_some]
          rw [subRun_shift c rest (idx + 1)]
          rfl


theorem runSim_shift (tr : Nat → StepRand) (N : Nat) (t0 c : ℚ) :
    runSim tr N (t0 + c)
      = ⟨(runSim tr N t0).produced.map (shiftMsg c),
         (runSim tr N t0).received.map (shiftRec c),
         (runSim tr N t0).leftover.map (shiftEvent c),
         (runSim tr N t0).events.map (shiftEvent c)⟩ := by
  have hk : ∀ a b : Event,
      ((shiftEvent c a).fire ≤ (shiftEvent c b).fire) ↔ (a.fire ≤ b.fire) :=
    fun a b => add_le_add_iff_right c
  have hsort : sortOn (fun e => e.fire)
        ((publisherRun tr N t0).events.map (shiftEvent c))
      = (sortOn (fun e => e.fire) (publisherRun tr N t0).events).map
          (shiftEvent c) :=
    (map_sortOn hk (publisherRun tr N t0).events).symm
  simp only [runSim]
  rw [publisherRun_shift]
  simp only [shiftState]
  rw [hsort, subRun_shift]

theorem pubLoop_produced_map (tr : Nat → StepRand) :
    ∀ (n seq : Nat) (st : PubState),
      (pubLoop tr n seq st).produced.map (fun m => m.sequence_id)
        = st.produced.map (fun m => m.sequence_id)
          ++ (List.range' seq n).map (fun k => (k : Int))
  | 0, seq, st => by simp [pubLoop]
  | n + 1, seq, st => by
      rw [pubLoop, pubLoop_produced_map tr n (seq + 1) (pubStep tr seq st),
        pubStep_produced, List.map_append, List.range'_succ, List.map_cons,
        List.append_assoc]
      rfl

theorem pubLoop_produced_mono (tr : Nat → StepRand) :
    ∀ (n seq : Nat) (st : PubState) (m : Message),
      m ∈ st.produced → m ∈ (pubLoop tr n seq st).produced
  | 0, _, _, _, h => h
  | n + 1, seq, st, m, h => by
      rw [pubLoop]
      exact pubLoop_produced_mono tr n (seq + 1) (pubStep tr seq st) m
        (by
          rw [pubStep_produced]
          exact List.mem_append_left _ h)

theorem pubStep_events_payload (tr : Nat → StepRand) (seq : Nat)
    (st : PubState)
    (h : ∀ e ∈ st.events, ∀ m, e.payload = some m → m ∈ st.produced) :
    ∀ e ∈ (pubStep tr seq st).events, ∀ m, e.payload = some m
      → m ∈ (pubStep tr seq st).produced := by
  intro e he m hm
  rw [pubStep_produced]
  simp only [pubStep] at he
  rcases ite_eq_or_eq
      ((st.produced ++ [_] : List Message) ≠ [] ∧ (tr seq).dupDraw = true)
      _ _ with hsplit | hsplit
  all_goals rw [hsplit] at he
  · rcases List.mem_append.mp he with he1 | he1
    · rcases List.mem_append.mp he1 with he2 | he2
      · exact List.mem_append_left _ (h e he2 m hm)
      · rcases List.mem_singleton.mp he2 with rfl
        by_cases hs : (tr seq).slowDraw
        · rw [if_pos hs] at hm
          cases hm
          exact List.mem_append_right _ (List.mem_singleton.mpr rfl)
        · rw [if_neg hs] at hm
          cases hm
          exact List.mem_append_right _ (List.mem_singleton.mpr rfl)
    · rcases List.mem_singleton.mp he1 with rfl
      cases hm
      rcases getD_mem_or (st.produced ++ [_]) _ _ with hmem | hdef
      · exact hmem
      · rw [hdef]
        exact List.mem_append_right _ (List.mem_singleton.mpr rfl)
  · rcases List.mem_append.mp he with he1 | he1
    · exact List.mem_append_left _ (h e he1 m hm)
    · rcases List.mem_singleton.mp he1 with rfl
      by_cases hs : (tr seq).slowDraw
      · rw [if_pos hs] at hm
        cases hm
        exact List.mem_append_right _ (List.mem_singleton.mpr rfl)
      · rw [if_neg hs] at hm
        cases hm
        exact List.mem_append_right _ (List.mem_singleton.mpr rfl)

theorem pubLoop_events_payload (tr : Nat → StepRand) :
    ∀ (n seq : Nat) (st : PubState),
      (∀ e ∈ st.events, ∀ m, e.payload = some m → m ∈ st.produced) →
      ∀ e ∈ (pubLoop tr n seq st).events, ∀ m, e.payload = some m
        → m ∈ (pubLoop tr n seq st).produced
  | 0, _, _, h => h
  | n + 1, seq, st, h => by
      rw [pubLoop]
      exact pubLoop_events_payload tr n (seq + 1) (pubStep tr seq st)
        (pubStep_events_payload tr seq st h)

/-- C1: the "no loss" property fails on the code.  With one message drawn on
the slow path (`total_messages = 1`, a slow draw, no duplicate, zero delay),
the slow `delayed_send` fires `0.2` after the sentinel is enqueued, the
subscriber breaks at the sentinel without ever dequeuing the message, the
Analyzer's `missing` set is `{1}` (nonempty), and the run does not drain:
the slow item is never dequeued or acknowledged (the code's `queue.join()`
releases early, its counter having reached zero before the slow put fired). -/
theorem C1_no_loss_fails_on_slow_path :
    missingSeqIds (runSim trSlow 1 0) = [1]
    ∧ (runSim trSlow 1 0).received = []
    ∧ joinCompletes (runSim trSlow 1 0) = false := by
  norm_num [runSim, publisherRun, pubLoop, pubStep, clamp0, slowExtraDelay,
    sortOn, ordIns, subRun, missingSeqIds, joinCompletes, trSlow]

/-- C2: in the run of `trSlow` with one message, the completion sentinel is
enqueued exactly once and only after the slow-path send has been scheduled
(the events in schedule order are `[slowPath, sentinel]`), but the
completion/drain barrier does not do what the claim states: the slow-path
item fires after the sentinel and is never dequeued or acknowledged (it is
the whole leftover) — `queue.join()`'s counter reaches zero before the slow
put fires, so the barrier releases without waiting for it. -/
theorem C2_join_barrier_fails_on_slow_path :
    ((runSim trSlow 1 0).events.countP
        (fun e => decide (e.origin = Origin.sentinel)) = 1)
    ∧ (runSim trSlow 1 0).events.map (fun e => e.origin)
        = [Origin.slowPath, Origin.sentinel]
    ∧ (runSim trSlow 1 0).leftover.map (fun e => e.origin) = [Origin.slowPath]
    ∧ joinCompletes (runSim trSlow 1 0) = false := by
  norm_num [runSim, publisherRun, pubLoop, pubStep, clamp0, slowExtraDelay,
    sortOn, ordIns, subRun, joinCompletes, trSlow, List.countP_cons,
    List.countP_nil]
  decide

/-- C7 counterexample: two runs with the identical trace (identical seed and
configuration) started at different wall-clock times produce different
produced-history and received-record lists, because `created_at` and
`arrival_ts` store `time.time()` readings. -/
theorem C7_counterexample :
    (runSim trPlain 1 0).produced ≠ (runSim trPlain 1 1).produced
    ∧ (runSim trPlain 1 0).received ≠ (runSim trPlain 1 1).received := by
  norm_num [runSim, publisherRun, pubLoop, pubStep, clamp0, slowExtraDelay,
    sortOn, ordIns, subRun, trPlain, Message.mk.injEq, Rec.mk.injEq]

/-- C7 as amended: two runs with identical seed and configuration (the same
trace) produce produced-history and received-record lists that are identical
in every field except the wall-clock timestamp fields `created_at` and
`arrival_ts` (and byte-identical when the runs also observe the same clock). -/
theorem C7_reproducible_modulo_clock (tr : Nat → StepRand) (N : Nat)
    (t0 t1 : ℚ) :
    (runSim tr N t0).produced.map stripMsgTime
      = (runSim tr N t1).produced.map stripMsgTime
    ∧ (runSim tr N t0).received.map stripRecTimes
      = (runSim tr N t1).received.map stripRecTimes := by
  have h := runSim_shift tr N t0 (t1 - t0)
  have he : t0 + (t1 - t0) = t1 := by ring
  rw [he] at h
  rw [h]
  constructor
  · show _ = ((runSim tr N t0).produced.map (shiftMsg (t1 - t0))).map
      stripMsgTime
    rw [List.map_map]
    exact (List.map_congr_left (fun a _ => rfl)).symm
  · show _ = ((runSim tr N t0).received.map (shiftRec (t1 - t0))).map
      stripRecTimes
    rw [List.map_map]
    exact (List.map_congr_left (fun a _ => rfl)).symm

/-- C8: in every run, the produced history holds exactly `N` messages whose
`sequence_id`s are the contiguous range `1..N` in order, and every enqueued
payload — duplicate emissions included — is an element of the produced
history (the very same immutable `Message` value: same `message_id`,
`sequence_id`, `partition_id`, `created_at`, `value` and `zipcode`), so
duplicates consume no new sequence number. -/
theorem C8_publisher_history (tr : Nat → StepRand) (N : Nat) (t0 : ℚ) :
    (runSim tr N t0).produced.map (fun m => m.sequence_id)
      = (List.range' 1 N).map (fun k => (k : Int))
    ∧ ∀ e ∈ (runSim tr N t0).events, ∀ m, e.payload = some m
        → m ∈ (runSim tr N t0).produced := by
  constructor
  · have h := pubLoop_produced_map tr N 1 ⟨t0, [], []⟩
    show (pubLoop tr N 1 ⟨t0, [], []⟩).produced.map (fun m => m.sequence_id) = _
    rw [h]
    rfl
  · intro e he m hm
    have hbase : ∀ e2 ∈ (⟨t0, [], []⟩ : PubState).events, ∀ m2,
        e2.payload = some m2 → m2 ∈ (⟨t0, [], []⟩ : PubState).produced := by
      intro e2 he2
      cases he2
    have hmain := pubLoop_events_payload tr N 1 ⟨t0, [], []⟩ hbase
    have he2 : e ∈ (pubLoop tr N 1 ⟨t0, [], []⟩).events
        ++ [⟨(pubLoop tr N 1 ⟨t0, [], []⟩).now, none, Origin.sentinel⟩] := he
    rcases List.mem_append.mp he2 with h3 | h3
    · exact hmain e h3 m hm
    · rcases List.mem_singleton.mp h3 with rfl
      cases hm

/-- Witness for C8 at the concrete run `runSim trPlain 1 0`: the produced
history is exactly the single message `msg1W` with `sequence_id = 1`, and the
first enqueued event's payload is an element of the produced history. -/
theorem C8_publisher_history_witness :
    (runSim trPlain 1 0).produced.map (fun m => m.sequence_id) = [(1 : Int)]
    ∧ msg1W ∈ (runSim trPlain 1 0).produced := by
  have h := C8_publisher_history trPlain 1 0
  refine ⟨h.1.trans (by decide), ?_⟩
  refine h.2 ⟨0, some msg1W, Origin.immediate⟩ ?_ msg1W rfl
  norm_num [runSim, publisherRun, pubLoop, pubStep, clamp0, slowExtraDelay,
    trPlain, msg1W]

theorem filter_map_setCol (c2 : String) (v : Val) :
    ∀ r : SRow,
      ((r.map (fun p => if p.1 = c2 then (c2, v) else p)).filter
          (fun p => decide (p.1 ≠ c2)))
        = r.filter (fun p => decide (p.1 ≠ c2))
  | [] => rfl
  | p :: ps => by
      by_cases h : p.1 = c2
      · rw [List.map_cons, if_pos h, List.filter_cons_of_neg (by simp),
          List.filter_cons_of_neg (by simp [h]), filter_map_setCol c2 v ps]
      · rw [List.map_cons, if_neg h, List.filter_cons_of_pos (by simp [h]),
          List.filter_cons_of_pos (by simp [h]), filter_map_setCol c2 v ps]

/-- Overwriting or appending a column and then dropping it leaves the row's
other columns untouched. -/
theorem eraseCol_setCol (c2 : String) (v : Val) (r : SRow) :
    eraseCol c2 (setCol c2 v r) = eraseCol c2 r := by
  unfold setCol eraseCol
  by_cases h : r.any (fun p => decide (p.1 = c2))
  · rw [if_pos h]
    exact filter_map_setCol c2 v r
  · rw [if_neg h, List.filter_append, List.filter_cons_of_neg (by simp),
      List.filter_nil, List.append_nil]

/-- C9: a strategy whose identity-key or sort-key column is absent fails
fast.  When `message_id` is absent the Eager strategy raises
`ColumnNotFoundError` at the hash step and the persisted table is unchanged;
when the key columns are present but `created_at` is absent the Merge
strategy raises at the sort step, again leaving the table unchanged; and on
the successful path the hash step only attaches the `composite_hash` column,
leaving every pre-existing column value of every row untouched (no silent
coercion of the stored fields). -/
theorem C9_missing_field_fail_fast (df : SDF) (table : List SRow) :
    ("message_id" ∉ df.cols →
      eagerProcessDay05 df table
        = (Except.error (StratErr.columnNotFound "message_id"), table))
    ∧ ("message_id" ∈ df.cols → "sequence_id" ∈ df.cols →
        "partition_id" ∈ df.cols → "created_at" ∉ df.cols →
        mergeProcessDay05 df table
          = (Except.error (StratErr.columnNotFound "created_at"), table))
    ∧ ("message_id" ∈ df.cols → "sequence_id" ∈ df.cols →
        "partition_id" ∈ df.cols →
        (add_composite_hash_column df).map
            (fun d => d.rows.map (eraseCol "composite_hash"))
          = Except.ok (df.rows.map (eraseCol "composite_hash"))) := by
  refine ⟨?_, ?_, ?_⟩
  · intro h
    simp [eagerProcessDay05, add_composite_hash_column, h]
  · intro h1 h2 h3 h4
    by_cases hc : "composite_hash" ∈ df.cols
    · simp [mergeProcessDay05, add_composite_hash_column, h1, h2, h3, h4, hc]
    · simp [mergeProcessDay05, add_composite_hash_column, h1, h2, h3, h4, hc]
  · intro h1 h2 h3
    simp only [add_composite_hash_column, h1, h2, h3, not_true_eq_false,
      if_false, ite_false, Except.map]
    rw [List.map_map]
    exact congrArg Except.ok
      (List.map_congr_left (fun r _ => eraseCol_setCol _ _ r))

/-- Witness for C9 at concrete frames: a frame with no `message_id` column
makes the Eager strategy fail with the table untouched; a frame with the key
columns but no `created_at` makes the Merge strategy fail likewise; and the
hash step on that second frame succeeds without altering any pre-existing
column value. -/
theorem C9_missing_field_fail_fast_witness :
    eagerProcessDay05 dfMissingKey tableW
        = (Except.error (StratErr.columnNotFound "message_id"), tableW)
    ∧ mergeProcessDay05 dfNoCreatedAt tableW
        = (Except.error (StratErr.columnNotFound "created_at"), tableW)
    ∧ (add_composite_hash_column dfNoCreatedAt).map
          (fun d => d.rows.map (eraseCol "composite_hash"))
        = Except.ok (dfNoCreatedAt.rows.map (eraseCol "composite_hash")) :=
  ⟨(C9_missing_field_fail_fast dfMissingKey tableW).1 (by decide),
   (C9_missing_field_fail_fast dfNoCreatedAt tableW).2.1 (by decide)
     (by decide) (by decide) (by decide),
   (C9_missing_field_fail_fast dfNoCreatedAt tableW).2.2 (by decide)
     (by decide) (by decide)⟩
